import Mathlib

/-!
# Verification of the nif-blender import/export core

Shallow embedding, in Lean 4, of the parts of the `nif-blender` code base
(a Blender importer/exporter for the NIF scene-graph format) that the
specification's claims are about, together with theorems settling each claim.

Embedded code:
* `src/nif_import.py`, `NifImport.import_mesh` — vertex deduplication and
  polygon deduplication (claims C1, C2);
* `src/nif_common.py` — `VERTEX_RESOLUTION` / `NORMAL_RESOLUTION`,
  `get_extend_from_flags`, bone-name convention translation (C1, C8, C10);
* `src/animationsys/animation_export.py` — the emit phase of
  `AnimationHelper.export_keyframes` and
  `TextureAnimation.export_flip_controller` (C3, C9);
* `src/armaturesys/armature_import.py` — `vec_roll_to_mat3`,
  `mat3_to_vec_roll`, `Armature.complete_bone_tree`,
  `Armature.decompose_srt` (C4, C5, C6, C7).

Python floats are modelled as rationals where the code only compares,
copies and quantizes them, and as real numbers where the code does actual
analysis (square roots, trigonometry); Python `dict`s are modelled as
insertion-ordered association lists, matching CPython semantics.
-/

namespace NifBlender

/-! ## Vertex deduplication (`NifImport.import_mesh`, nif_import.py 1107-1170) -/

/-- Python's `int()` applied to a float: truncation toward zero. -/
def pyInt (q : ℚ) : ℤ :=
  if 0 ≤ q then ⌊q⌋ else ⌈q⌉

/-- A 3-component vector with rational components (a Python
`NifFormat.Vector3` as far as the dedup key computation is concerned). -/
structure QVec3 where
  x : ℚ
  y : ℚ
  z : ℚ
deriving DecidableEq, Repr

/-- `NifCommon.VERTEX_RESOLUTION` (nif_common.py line 99). -/
def VERTEX_RESOLUTION : ℚ := 1000

/-- `NifCommon.NORMAL_RESOLUTION` (nif_common.py line 100). -/
def NORMAL_RESOLUTION : ℚ := 100

/-- The dedup key `k` of import_mesh: position components times
`VERTEX_RESOLUTION` and normal components times `NORMAL_RESOLUTION`,
each truncated with `int()`; the normal part is present only when the
geometry carries normals. -/
def vertexKey (v : QVec3) (n : Option QVec3) : List ℤ :=
  match n with
  | some nn =>
      [pyInt (v.x * VERTEX_RESOLUTION), pyInt (v.y * VERTEX_RESOLUTION),
       pyInt (v.z * VERTEX_RESOLUTION), pyInt (nn.x * NORMAL_RESOLUTION),
       pyInt (nn.y * NORMAL_RESOLUTION), pyInt (nn.z * NORMAL_RESOLUTION)]
  | none =>
      [pyInt (v.x * VERTEX_RESOLUTION), pyInt (v.y * VERTEX_RESOLUTION),
       pyInt (v.z * VERTEX_RESOLUTION)]

/-- Lookup in an insertion-ordered association list (Python `dict` read). -/
def assocFind (k : List ℤ) : List (List ℤ × Nat) → Option Nat
  | [] => none
  | (k', i) :: rest => if k' = k then some i else assocFind k rest

/-- Write to an insertion-ordered association list (Python `dict` write:
overwrites the value of an existing key, otherwise appends). -/
def assocWrite (k : List ℤ) (i : Nat) : List (List ℤ × Nat) → List (List ℤ × Nat)
  | [] => [(k, i)]
  | (k', j) :: rest => if k' = k then (k, i) :: rest else (k', j) :: assocWrite k i rest

/-- The state threaded through the dedup loop of import_mesh: `n_map`
(dedup key -> stored NIF index), `v_map` (source index -> Blender vertex
index, built in source order) and `b_v_index` (next Blender vertex index,
equal to the number of Blender vertices so far). -/
structure DedupState where
  nMap : List (List ℤ × Nat)
  vMap : List Nat
  bVIndex : Nat
deriving DecidableEq, Repr

/-- One iteration of `for i, v in enumerate(n_verts)` in import_mesh.
The lookup result `n_map_k` is `None` when combining is disabled or the key
is absent; the branch is Python's `if not n_map_k:`, which treats both
`None` *and* the stored index `0` as "not added". -/
def dedupStep (combine : Bool) (st : DedupState) (i : Nat) (key : List ℤ) : DedupState :=
  let nMapK : Option Nat := if combine then assocFind key st.nMap else none
  match nMapK with
  | some j =>
      if j = 0 then
        { nMap := assocWrite key i st.nMap
          vMap := st.vMap ++ [st.bVIndex]
          bVIndex := st.bVIndex + 1 }
      else
        { st with vMap := st.vMap ++ [st.vMap.getD j 0] }
  | none =>
      { nMap := assocWrite key i st.nMap
        vMap := st.vMap ++ [st.bVIndex]
        bVIndex := st.bVIndex + 1 }

/-- The whole dedup loop of import_mesh over the source vertex list
(each entry: position and optional normal), starting from `b0` already
existing Blender vertices (`b_v_index = len(b_mesh.vertices)`). -/
def importVerts (combine : Bool) (b0 : Nat) (verts : List (QVec3 × Option QVec3)) : DedupState :=
  (verts.foldl
    (fun (p : DedupState × Nat) vn =>
      (dedupStep combine p.1 p.2 (vertexKey vn.1 vn.2), p.2 + 1))
    (⟨[], [], b0⟩, 0)).1

/-! ## Polygon deduplication (`NifImport.import_mesh`, nif_import.py 1173-1196) -/

/-- `f_verts = [v_map[vert_index] for vert_index in f]`: a source polygon's
vertex indices remapped through `v_map`. -/
def remapPoly (vMap : List Nat) (f : List Nat) : List Nat :=
  f.map (fun vi => vMap.getD vi 0)

/-- The `unique_faces` list built by the polygon loop of import_mesh: each
remapped tuple is appended unless it is already present (`if tuple(f_verts)
in unique_faces: continue`).  Its length is `num_new_faces`, the number of
polygons actually emitted. -/
def uniqueFaces (vMap : List Nat) (polys : List (List Nat)) : List (List Nat) :=
  polys.foldl (fun acc f =>
    if remapPoly vMap f ∈ acc then acc else acc ++ [remapPoly vMap f]) []

/-- Generic form of the `unique_faces` accumulation, for proofs. -/
def dedupAppend {α : Type} [BEq α] [LawfulBEq α] : List α → List α → List α
  | acc, [] => acc
  | acc, t :: ts => dedupAppend (if t ∈ acc then acc else acc ++ [t]) ts

/-! ## Extend-flag mapping (`NifCommon.get_extend_from_flags`, nif_common.py 320-329) -/

/-- The cycle behaviour the code configures on the Blender f-curve:
`clamp` = constant extrapolation, `repeatMode` = a CYCLES modifier. -/
inductive ExtendMode where
  | clamp
  | repeatMode
deriving DecidableEq, Repr

/-- `NifCommon.get_extend_from_flags`.  Returns the configured cycle
behaviour and whether the "Unsupported cycle mode in nif, using clamped."
warning was emitted.  The code masks the flags with `6` (binary 0b110):
masked value `4` keeps the f-curve clamped, masked value `0` installs a
CYCLES (repeat) modifier, anything else warns and clamps. -/
def get_extend_from_flags (flags : Nat) : ExtendMode × Bool :=
  if flags &&& 6 = 4 then (ExtendMode.clamp, false)
  else if flags &&& 6 = 0 then (ExtendMode.repeatMode, false)
  else (ExtendMode.clamp, true)

/-! ## Flip controller (`TextureAnimation.export_flip_controller`,
animation_export.py 506-544) -/

/-- `TextureAnimation.export_flip_controller`, reduced to the data the
claim is about: `tlist` is the list of lines of the flip text buffer,
`start` / `stop` are `flip.start_time` / `flip.stop_time`.  `count` counts
the non-empty lines (one source texture each).  `none` models the
`NifError` raised when fewer than two textures are defined; otherwise the
result is `flip.delta = (flip.stop_time - flip.start_time) / count`. -/
def export_flip_controller (tlist : List (List Char)) (start stop : ℚ) : Option ℚ :=
  let count := (tlist.filter (fun t => t.length != 0)).length
  if count < 2 then none
  else some ((stop - start) / (count : ℚ))

/-! ## Keyframe emit phase (`AnimationHelper.export_keyframes`,
animation_export.py 338-436) -/

/-- A rotation sample held in `rot_curve`: either a Blender Euler (the
object-rotation curves) or a quaternion (the pose-rotation curves, or any
rotation already composed with a bind/extra quaternion). -/
inductive RotSample where
  | euler (x y z : ℚ)
  | quat (w x y z : ℚ)
deriving DecidableEq, Repr

/-- What the emit phase of `export_keyframes` produces, as far as the
claims observe it: whether a keyframe-data block (`NiKeyframeData` /
`NiTransformData`) was created, the static `kfi.translation`,
`kfi.rotation` and `kfi.scale` defaults written in the degenerate branch,
and the translation keys written into the data block otherwise.
`kfiRotation` records the rotation sample selected for the default pose
(`list(rot_curve.values())[0]`); on assignment the code converts an Euler
sample to a quaternion with `toQuat()`, a value-level trigonometric
conversion no claim observes, so the recorded value is the selected
sample itself. -/
structure EmitResult where
  kfdEmitted : Bool
  kfiTranslation : Option (ℚ × ℚ × ℚ)
  kfiRotation : Option RotSample
  kfiScale : Option ℚ
  kfdTransKeys : List (ℚ × (ℚ × ℚ × ℚ))
deriving DecidableEq, Repr

/-- Insertion sort by sample time, modelling `frames.sort()` over the
curve dictionary keys (keys are distinct, so any stable order agrees). -/
def insertByTime {α : Type} (p : ℚ × α) : List (ℚ × α) → List (ℚ × α)
  | [] => [p]
  | q :: rest => if p.1 ≤ q.1 then p :: q :: rest else q :: insertByTime p rest

/-- Sort a curve's samples by time (see `insertByTime`). -/
def sortByTime {α : Type} : List (ℚ × α) → List (ℚ × α)
  | [] => []
  | p :: rest => insertByTime p (sortByTime rest)

/-- First version with static transform interpolators, the threshold used
by `export_keyframes` (`self.nif_export.version >= 0x0A020000`). -/
def STATIC_INTERP_VERSION : Nat := 0x0A020000

/-- The emit phase of `export_keyframes` ("-> now comes the real export"),
given the composed `rot_curve` / `trans_curve` / `scale_curve`
dictionaries (modelled as `(time, value)` lists with distinct times) and
the target NIF version.  When every curve has at most one sample and the
version supports static interpolators, the branch writes the single
translation and rotation samples into the interpolator defaults
(`kfi.translation`, `kfi.rotation`) but *discards* a single scale sample,
hard-setting `kfi.scale = 1.0` (`# ignore scale for now...`,
animation_export.py 357-358), and returns without creating a
keyframe-data block; otherwise a data block is created and filled with
the sorted keys of each curve. -/
def exportKeyframesEmit (version : Nat) (rotCurve : List (ℚ × RotSample))
    (transCurve : List (ℚ × (ℚ × ℚ × ℚ))) (scaleCurve : List (ℚ × ℚ)) : EmitResult :=
  if max (max rotCurve.length transCurve.length) scaleCurve.length ≤ 1 ∧
      STATIC_INTERP_VERSION ≤ version then
    { kfdEmitted := false
      kfiTranslation := (transCurve.head?).map Prod.snd
      kfiRotation := (rotCurve.head?).map Prod.snd
      kfiScale := some 1
      kfdTransKeys := [] }
  else
    { kfdEmitted := true
      kfiTranslation := none
      kfiRotation := none
      kfiScale := none
      kfdTransKeys := sortByTime transCurve }

/-! ## Bone-tree completion (`Armature.complete_bone_tree`,
armature_import.py 365-389) -/

/-- `Armature.complete_bone_tree`, with NIF blocks modelled as naturals,
the `_parent` back-reference as a function, and the bone list
`dict_armatures[skelroot]` threaded explicitly.  The Python function is
plain recursion on `bone._parent` with no defensive cycle check; `fuel`
bounds the recursion depth, `none` meaning the bound was reached without
the source recursion returning. -/
def completeBoneTree (parent : Nat → Nat) (skelroot : Nat) :
    Nat → Nat → List Nat → Option (List Nat)
  | 0, _, _ => none
  | fuel + 1, bone, bones =>
      let boneparent := parent bone
      if boneparent = skelroot then some bones
      else
        completeBoneTree parent skelroot fuel boneparent
          (if boneparent ∈ bones then bones else bones ++ [boneparent])

/-- `n`-fold application of the `_parent` back-reference. -/
def iterParent (parent : Nat → Nat) : Nat → Nat → Nat
  | 0, b => b
  | n + 1, b => iterParent parent n (parent b)

/-! ## Bone-name convention translation (`NifCommon.get_bone_name_for_blender`
/ `get_bone_name_for_nif`, nif_common.py 193-248) -/

/-- Python `str.startswith`, on strings as character lists. -/
def pyStartsWith : List Char → List Char → Bool
  | [], _ => true
  | _ :: _, [] => false
  | p :: ps, c :: cs => if p = c then pyStartsWith ps cs else false

/-- Python `str.endswith`, on strings as character lists. -/
def pyEndsWith (suf s : List Char) : Bool :=
  pyStartsWith suf.reverse s.reverse

/-- Python `str.replace`: replace every non-overlapping occurrence of
`pat`, scanning left to right (call sites always pass a non-empty
pattern; an empty pattern leaves the string unchanged here). -/
def pyReplace (pat rep : List Char) : List Char → List Char
  | [] => []
  | c :: cs =>
      if h : pat ≠ [] ∧ pyStartsWith pat (c :: cs) = true then
        rep ++ pyReplace pat rep ((c :: cs).drop pat.length)
      else
        c :: pyReplace pat rep cs
termination_by s => s.length
decreasing_by
  · simp only [List.length_drop, List.length_cons]
    have : 0 < pat.length := List.length_pos.mpr h.1
    omega
  · simp

/-- Python slice `name[a:-b]` (from index `a` up to `b` characters before
the end), on strings as character lists. -/
def pySlice (a b : Nat) (s : List Char) : List Char :=
  (s.drop a).take (s.length - (a + b))

/-- `NifCommon.get_bone_name_for_blender`: turns `Bip01 L xxx` into
`Bip01 xxx.L` (and similar for `R` and for the `NPC L ...]` /
`NPC R ...]` patterns). -/
def get_bone_name_for_blender (name : List Char) : List Char :=
  if pyStartsWith "Bip01 L ".data name then
    "Bip01 ".data ++ name.drop 8 ++ ".L".data
  else if pyStartsWith "Bip01 R ".data name then
    "Bip01 ".data ++ name.drop 8 ++ ".R".data
  else if pyStartsWith "NPC L ".data name && pyEndsWith "]".data name then
    pyReplace "]".data "].L".data
      (pyReplace "[L".data "[".data (pyReplace "NPC L".data "NPC".data name))
  else if pyStartsWith "NPC R ".data name && pyEndsWith "]".data name then
    pyReplace "]".data "].R".data
      (pyReplace "[R".data "[".data (pyReplace "NPC R".data "NPC".data name))
  else name

/-- `NifCommon.get_bone_name_for_nif`: turns `Bip01 xxx.L` into
`Bip01 L xxx` (and similar for `R` and for the NPC patterns).  A name
starting with `Bip01 ` but ending in neither `.L` nor `.R` falls through
the outer `if` and is returned unchanged. -/
def get_bone_name_for_nif (name : List Char) : List Char :=
  if pyStartsWith "Bip01 ".data name then
    if pyEndsWith ".L".data name then "Bip01 L ".data ++ pySlice 6 2 name
    else if pyEndsWith ".R".data name then "Bip01 R ".data ++ pySlice 6 2 name
    else name
  else if pyStartsWith "NPC ".data name && pyEndsWith "].L".data name then
    pyReplace "].L".data "]".data
      (pyReplace "[".data "[L".data (pyReplace "NPC ".data "NPC L".data name))
  else if pyStartsWith "NPC ".data name && pyEndsWith "].R".data name then
    pyReplace "].R".data "]".data
      (pyReplace "[".data "[R".data (pyReplace "NPC ".data "NPC R".data name))
  else name

/-! ## Helper lemmas -/

theorem length_dedupAppend_le {α : Type} [BEq α] [LawfulBEq α] (l : List α) :
    ∀ acc : List α, (dedupAppend acc l).length ≤ acc.length + l.length := by
  induction l with
  | nil => intro acc; simp [dedupAppend]
  | cons t ts ih =>
    intro acc
    by_cases h : t ∈ acc
    · simp only [dedupAppend, if_pos h, List.length_cons]
      have := ih acc
      omega
    · simp only [dedupAppend, if_neg h, List.length_cons]
      have := ih (acc ++ [t])
      simp only [List.length_append, List.length_singleton] at this
      omega

theorem length_dedupAppend_eq_iff {α : Type} [BEq α] [LawfulBEq α] (l : List α) :
    ∀ acc : List α,
      (dedupAppend acc l).length = acc.length + l.length ↔
        l.Nodup ∧ ∀ t ∈ l, t ∉ acc := by
  induction l with
  | nil => intro acc; simp [dedupAppend]
  | cons t ts ih =>
    intro acc
    by_cases h : t ∈ acc
    · simp only [dedupAppend, if_pos h, List.length_cons]
      constructor
      · intro he
        have := length_dedupAppend_le ts acc
        omega
      · rintro ⟨-, hall⟩
        exact absurd h (hall t (by simp))
    · simp only [dedupAppend, if_neg h, List.length_cons]
      have heq : acc.length + (ts.length + 1) = (acc ++ [t]).length + ts.length := by
        simp only [List.length_append, List.length_singleton]
        omega
      rw [heq, ih (acc ++ [t])]
      constructor
      · rintro ⟨hnd, hall⟩
        refine ⟨List.nodup_cons.mpr ⟨?_, hnd⟩, ?_⟩
        · intro htts
          exact hall t htts (by simp)
        · intro u hu
          rcases List.mem_cons.mp hu with rfl | huts
          · exact h
          · intro huacc
            exact hall u huts (by simp [huacc])
      · rintro ⟨hnd, hall⟩
        obtain ⟨htts, hndts⟩ := List.nodup_cons.mp hnd
        refine ⟨hndts, ?_⟩
        intro u huts huin
        rcases List.mem_append.mp huin with huacc | hut
        · exact hall u (by simp [huts]) huacc
        · simp only [List.mem_singleton] at hut
          exact htts (hut ▸ huts)

theorem uniqueFaces_eq_dedupAppend (vMap : List Nat) (polys : List (List Nat)) :
    uniqueFaces vMap polys = dedupAppend [] (polys.map (remapPoly vMap)) := by
  suffices h : ∀ (ps : List (List Nat)) (acc : List (List Nat)),
      ps.foldl (fun acc f =>
        if remapPoly vMap f ∈ acc then acc else acc ++ [remapPoly vMap f]) acc =
        dedupAppend acc (ps.map (remapPoly vMap)) by
    exact h polys []
  intro ps
  induction ps with
  | nil => intro acc; simp [dedupAppend]
  | cons f fs ih =>
    intro acc
    simp only [List.foldl_cons, List.map_cons, dedupAppend]
    exact ih (if remapPoly vMap f ∈ acc then acc else acc ++ [remapPoly vMap f])

/-! ## Claim theorems (discrete part) -/

/-- C1 (code bug witness): with the "combine vertices" option enabled, two
source vertices with *equal* quantized keys whose first occurrence is
source index 0 are not merged: `n_map[k]` stores index `0`, Python's
`if not n_map_k:` treats it as "not added", and the importer emits two
Blender vertices (`v_map = [0, 1]`, `b_v_index = 2`), contradicting the
claimed "merge iff quantized keys match" and the code's own comments. -/
theorem c1_vertex_dedup_failing_input :
    vertexKey ⟨0, 0, 0⟩ none = vertexKey ⟨0, 0, 0⟩ none ∧
    (importVerts true 0 [(⟨0, 0, 0⟩, none), (⟨0, 0, 0⟩, none)]).vMap = [0, 1] ∧
    (importVerts true 0 [(⟨0, 0, 0⟩, none), (⟨0, 0, 0⟩, none)]).bVIndex = 2 := by
  refine ⟨rfl, ?_, ?_⟩ <;>
    norm_num [importVerts, dedupStep, vertexKey, assocFind, assocWrite, pyInt,
      VERTEX_RESOLUTION]

/-- C2: the number of emitted polygons (`num_new_faces`, the length of
`unique_faces`) is at most the number of source polygons, with equality
exactly when no source polygon's remapped vertex-index tuple duplicates
the remapped tuple of an earlier polygon (i.e. the remapped tuple list
has no duplicates). -/
theorem c2_polygon_dedup_count (vMap : List Nat) (polys : List (List Nat)) :
    (uniqueFaces vMap polys).length ≤ polys.length ∧
    ((uniqueFaces vMap polys).length = polys.length ↔
      (polys.map (remapPoly vMap)).Nodup) := by
  rw [uniqueFaces_eq_dedupAppend]
  constructor
  · have := length_dedupAppend_le (polys.map (remapPoly vMap)) []
    simpa using this
  · have := length_dedupAppend_eq_iff (polys.map (remapPoly vMap)) []
    simpa using this

/-- C3 counterexample: a scale track with the single sample `5` at time 0
(rotation and translation empty, version 0x0A020000 supporting static
interpolators) takes the degenerate branch — no keyframe-data block — but
the sample is *not* written into the interpolator's default pose: the
code discards it and hard-sets `kfi.scale = 1.0`
(`# ignore scale for now...`, animation_export.py 357-358), so the
default scale is `1`, not `5`. -/
theorem c3_counterexample :
    (exportKeyframesEmit 0x0A020000 [] [] [(0, 5)]).kfdEmitted = false ∧
    (exportKeyframesEmit 0x0A020000 [] [] [(0, 5)]).kfiScale = some 1 ∧
    (exportKeyframesEmit 0x0A020000 [] [] [(0, 5)]).kfiScale ≠ some 5 := by
  decide

/-- C3 (amended): when the composed rotation, translation and scale
curves each have at most one sample and the target version supports
static interpolators (`version >= 0x0A020000`), `export_keyframes` emits
no keyframe-data block and writes the single translation and rotation
samples into the interpolator defaults (`kfi.translation` gets the single
translation sample, `kfi.rotation` the single rotation sample — converted
with `toQuat()` when it is an Euler), while a single scale sample is
discarded and `kfi.scale` is hard-set to `1.0`. -/
theorem c3_degenerate_track_static_default (version : Nat)
    (rot : List (ℚ × RotSample)) (trans : List (ℚ × (ℚ × ℚ × ℚ)))
    (scale : List (ℚ × ℚ)) (hrot : rot.length ≤ 1) (htrans : trans.length ≤ 1)
    (hscale : scale.length ≤ 1) (hver : STATIC_INTERP_VERSION ≤ version) :
    (exportKeyframesEmit version rot trans scale).kfdEmitted = false ∧
    (exportKeyframesEmit version rot trans scale).kfiScale = some 1 ∧
    (∀ t v, trans = [(t, v)] →
      (exportKeyframesEmit version rot trans scale).kfiTranslation = some v) ∧
    ∀ t r, rot = [(t, r)] →
      (exportKeyframesEmit version rot trans scale).kfiRotation = some r := by
  have hc : max (max rot.length trans.length) scale.length ≤ 1 ∧
      STATIC_INTERP_VERSION ≤ version := by
    refine ⟨?_, hver⟩
    simp only [Nat.max_le]
    omega
  simp only [exportKeyframesEmit, if_pos hc]
  refine ⟨trivial, trivial, ?_, ?_⟩
  · rintro t v rfl
    simp
  · rintro t r rfl
    simp

/-- C3 witness: a translation track with the single sample `(1,2,3)` and
a rotation track with a single quaternion sample at time 0 on version
0x0A020000 yield no keyframe-data block, default translation `(1,2,3)`,
the quaternion as default rotation, and default scale `1.0`. -/
theorem c3_witness :
    (exportKeyframesEmit 0x0A020000 [(0, RotSample.quat 1 0 0 0)]
        [(0, (1, 2, 3))] []).kfdEmitted = false ∧
    (exportKeyframesEmit 0x0A020000 [(0, RotSample.quat 1 0 0 0)]
        [(0, (1, 2, 3))] []).kfiTranslation = some (1, 2, 3) ∧
    (exportKeyframesEmit 0x0A020000 [(0, RotSample.quat 1 0 0 0)]
        [(0, (1, 2, 3))] []).kfiRotation = some (RotSample.quat 1 0 0 0) ∧
    (exportKeyframesEmit 0x0A020000 [(0, RotSample.quat 1 0 0 0)]
        [(0, (1, 2, 3))] []).kfiScale = some 1 := by
  have h := c3_degenerate_track_static_default 0x0A020000
    [(0, RotSample.quat 1 0 0 0)] [(0, (1, 2, 3))] []
    (by decide) (by decide) (by decide) (by decide)
  exact ⟨h.1, h.2.2.1 0 (1, 2, 3) rfl, h.2.2.2 0 (RotSample.quat 1 0 0 0) rfl, h.2.1⟩

/-- C8 counterexample: the cycle-mode flag value 1 has bit `0b100` clear
and is not `0b000`, so the claim prescribes Clamp plus a warning for it;
the code masks with `0b110`, ignores bit 0, and configures Repeat with no
warning. -/
theorem c8_counterexample :
    (1 : Nat) &&& 4 = 0 ∧ (1 : Nat) ≠ 0 ∧
    get_extend_from_flags 1 = (ExtendMode.repeatMode, false) := by
  decide

/-- C8 (amended): `get_extend_from_flags` looks only at bits 1-2 (mask
`0b110`): masked value `0b100` maps to Clamp, masked value `0b000` (bit 0
ignored) maps to Repeat, and any other masked value maps to Clamp with a
non-fatal warning. -/
theorem c8_extend_flag_mapping (flags : Nat) :
    (flags &&& 6 = 4 → get_extend_from_flags flags = (ExtendMode.clamp, false)) ∧
    (flags &&& 6 = 0 →
      get_extend_from_flags flags = (ExtendMode.repeatMode, false)) ∧
    (flags &&& 6 ≠ 4 → flags &&& 6 ≠ 0 →
      get_extend_from_flags flags = (ExtendMode.clamp, true)) := by
  refine ⟨fun h4 => ?_, fun h0 => ?_, fun h4 h0 => ?_⟩
  · simp [get_extend_from_flags, h4]
  · simp [get_extend_from_flags, h0]
  · simp [get_extend_from_flags, h4, h0]

/-- C8 witness: the three masked classes evaluated at flag values 4, 0
and 6. -/
theorem c8_witness :
    get_extend_from_flags 4 = (ExtendMode.clamp, false) ∧
    get_extend_from_flags 0 = (ExtendMode.repeatMode, false) ∧
    get_extend_from_flags 6 = (ExtendMode.clamp, true) :=
  ⟨(c8_extend_flag_mapping 4).1 (by decide),
   (c8_extend_flag_mapping 0).2.1 (by decide),
   (c8_extend_flag_mapping 6).2.2 (by decide) (by decide)⟩

/-- C9: `export_flip_controller` raises (`none`) exactly when fewer than
two non-empty texture lines are defined, and otherwise sets
`flip.delta = (stop_time - start_time) / count`. -/
theorem c9_flip_controller (tlist : List (List Char)) (start stop : ℚ) :
    (export_flip_controller tlist start stop = none ↔
      (tlist.filter (fun t => t.length != 0)).length < 2) ∧
    (2 ≤ (tlist.filter (fun t => t.length != 0)).length →
      export_flip_controller tlist start stop =
        some ((stop - start) /
          ((tlist.filter (fun t => t.length != 0)).length : ℚ))) := by
  by_cases h : (tlist.filter (fun t => t.length != 0)).length < 2
  · refine ⟨?_, fun h2 => by omega⟩
    simp only [export_flip_controller, if_pos h]
    simp [h]
  · refine ⟨?_, fun _ => ?_⟩ <;> simp [export_flip_controller, if_neg h, h]

/-- C9 witness: one texture raises; two textures over a 100-unit span
give delta 50. -/
theorem c9_witness :
    export_flip_controller [['a']] 0 100 = none ∧
    export_flip_controller [['a'], ['b']] 0 100 = some 50 := by
  constructor
  · exact (c9_flip_controller [['a']] 0 100).1.mpr (by decide)
  · have h := (c9_flip_controller [['a'], ['b']] 0 100).2 (by decide)
    rw [h]
    norm_num

/-! ## Bone-tree lemmas -/

theorem completeBoneTree_subset (parent : Nat → Nat) (skelroot : Nat) :
    ∀ (fuel bone : Nat) (bones res : List Nat),
      completeBoneTree parent skelroot fuel bone bones = some res →
      ∀ x ∈ bones, x ∈ res := by
  intro fuel
  induction fuel with
  | zero => intro bone bones res h; exact absurd h (by simp [completeBoneTree])
  | succ fuel ih =>
    intro bone bones res h x hx
    simp only [completeBoneTree] at h
    by_cases hp : parent bone = skelroot
    · rw [if_pos hp] at h
      cases h
      exact hx
    · rw [if_neg hp] at h
      refine ih (parent bone) _ res h x ?_
      by_cases hm : parent bone ∈ bones
      · simpa [hm] using hx
      · simp [hm, List.mem_append, hx]

theorem completeBoneTree_run (parent : Nat → Nat) (skelroot : Nat) :
    ∀ (m bone : Nat) (bones : List Nat),
      (∀ k < m, iterParent parent (k + 1) bone ≠ skelroot) →
      iterParent parent (m + 1) bone = skelroot →
      ∃ res, completeBoneTree parent skelroot (m + 1) bone bones = some res ∧
        (∀ x ∈ bones, x ∈ res) ∧
        ∀ k, 1 ≤ k → k ≤ m → iterParent parent k bone ∈ res := by
  intro m
  induction m with
  | zero =>
    intro bone bones _ hroot
    have hp : parent bone = skelroot := hroot
    refine ⟨bones, ?_, fun x hx => hx, fun k hk1 hk0 => by omega⟩
    simp [completeBoneTree, hp]
  | succ m ih =>
    intro bone bones hfirst hroot
    have hp : parent bone ≠ skelroot := hfirst 0 (by omega)
    have hroot' : iterParent parent (m + 1) (parent bone) = skelroot := hroot
    have hfirst' : ∀ k < m, iterParent parent (k + 1) (parent bone) ≠ skelroot :=
      fun k hk => hfirst (k + 1) (by omega)
    obtain ⟨res, heq, hsub, hmem⟩ :=
      ih (parent bone)
        (if parent bone ∈ bones then bones else bones ++ [parent bone]) hfirst' hroot'
    have hpmem : parent bone ∈
        (if parent bone ∈ bones then bones else bones ++ [parent bone]) := by
      by_cases hpb : parent bone ∈ bones <;> simp [hpb]
    refine ⟨res, ?_, ?_, ?_⟩
    · simp only [completeBoneTree, if_neg hp]
      exact heq
    · intro x hx
      refine hsub x ?_
      by_cases hpb : parent bone ∈ bones <;> simp [hpb, hx]
    · intro k hk1 hk2
      obtain ⟨j, rfl⟩ : ∃ j, k = j + 1 := ⟨k - 1, by omega⟩
      have hiter : iterParent parent (j + 1) bone = iterParent parent j (parent bone) := rfl
      rw [hiter]
      rcases Nat.eq_zero_or_pos j with rfl | hj
      · exact hsub (parent bone) hpmem
      · exact hmem j hj (by omega)

theorem completeBoneTree_reaches (parent : Nat → Nat) (skelroot : Nat) :
    ∀ (fuel bone : Nat) (bones res : List Nat),
      completeBoneTree parent skelroot fuel bone bones = some res →
      ∃ m, iterParent parent (m + 1) bone = skelroot := by
  intro fuel
  induction fuel with
  | zero => intro bone bones res h; exact absurd h (by simp [completeBoneTree])
  | succ fuel ih =>
    intro bone bones res h
    simp only [completeBoneTree] at h
    by_cases hp : parent bone = skelroot
    · exact ⟨0, hp⟩
    · rw [if_neg hp] at h
      obtain ⟨m, hm⟩ := ih (parent bone) _ res h
      exact ⟨m + 1, hm⟩

/-- Parent map with a 2-cycle between blocks 1 and 2, avoiding the
skeleton root 0: `1 <-> 2`. -/
def cycParent : Nat → Nat := fun n => if n = 1 then 2 else if n = 2 then 1 else 0

theorem completeBoneTree_cyc_none :
    ∀ (fuel b : Nat) (bones : List Nat), b = 1 ∨ b = 2 →
      completeBoneTree cycParent 0 fuel b bones = none := by
  intro fuel
  induction fuel with
  | zero => intro b bones _; rfl
  | succ fuel ih =>
    intro b bones hb
    rcases hb with rfl | rfl
    · have h1 : cycParent 1 = 2 := rfl
      simp only [completeBoneTree, h1]
      rw [if_neg (by omega)]
      exact ih 2 _ (Or.inr rfl)
    · have h2 : cycParent 2 = 1 := rfl
      simp only [completeBoneTree, h2]
      rw [if_neg (by omega)]
      exact ih 1 _ (Or.inl rfl)

/-! ## Claim theorems: bone tree (C6, C7) -/

/-- C6 counterexample: for the parent chain A(=0, skeleton root) -> B(=1)
-> C(=2) with the skin binding only C, `complete_bone_tree` finishes with
the bone set `[C, B]`; the skeleton root A is recorded as the armature
(the `dict_armatures` key), not as a member of its own bone set, so the
claimed "the bone set contains A, B and C" fails for A. -/
theorem c6_counterexample :
    completeBoneTree (fun n => n - 1) 0 2 2 [2] = some [2, 1] ∧
    (0 : Nat) ∉ ([2, 1] : List Nat) := by
  decide

/-- C6 (amended): after `complete_bone_tree` runs from a bound bone whose
parent chain reaches the skeleton root in `m + 1` steps (without hitting
it earlier), every strict ancestor of the bone below the skeleton root —
and the bone itself — is in the resulting bone set; the skeleton root
itself is recorded as the armature, not in the bone set. -/
theorem c6_bone_tree_ancestors (parent : Nat → Nat) (skelroot m bone : Nat)
    (bones : List Nat) (hmem : bone ∈ bones)
    (hfirst : ∀ k < m, iterParent parent (k + 1) bone ≠ skelroot)
    (hroot : iterParent parent (m + 1) bone = skelroot) :
    ∃ res, completeBoneTree parent skelroot (m + 1) bone bones = some res ∧
      ∀ k ≤ m, iterParent parent k bone ∈ res := by
  obtain ⟨res, heq, hsub, hk⟩ := completeBoneTree_run parent skelroot m bone bones hfirst hroot
  refine ⟨res, heq, fun k hkm => ?_⟩
  rcases Nat.eq_zero_or_pos k with rfl | hpos
  · exact hsub bone hmem
  · exact hk k hpos hkm

/-- C6 witness: the concrete chain A(=0) -> B(=1) -> C(=2), skin bound to
C only: the run succeeds and C (= `iterParent 0`) and B (= `iterParent 1`)
are in the resulting bone set. -/
theorem c6_witness :
    ∃ res, completeBoneTree (fun n => n - 1) 0 2 2 [2] = some res ∧
      ∀ k ≤ 1, iterParent (fun n => n - 1) k 2 ∈ res :=
  c6_bone_tree_ancestors (fun n => n - 1) 0 1 2 [2] (by decide) (by decide) (by decide)

/-- C7 counterexample: on a cyclic parent chain (1 <-> 2) that avoids the
skeleton root, `complete_bone_tree` never returns, whatever recursion
budget it is given: there is no defensive cycle detection in the code. -/
theorem c7_counterexample :
    ¬ ∃ fuel res, completeBoneTree cycParent 0 fuel 1 [1] = some res := by
  rintro ⟨fuel, res, h⟩
  rw [completeBoneTree_cyc_none fuel 1 [1] (Or.inl rfl)] at h
  exact Option.noConfusion h

/-- C7 (amended): `complete_bone_tree` terminates exactly on the inputs
whose `_parent` chain from the bone reaches the skeleton root (each
recursive call moves one step up the chain); on any other input — in
particular a cyclic parent chain avoiding the root — the recursion never
returns, there being no defensive cycle detection. -/
theorem c7_termination_iff_reaches_root (parent : Nat → Nat)
    (skelroot bone : Nat) (bones : List Nat) :
    (∃ m, iterParent parent (m + 1) bone = skelroot) ↔
      ∃ fuel res, completeBoneTree parent skelroot fuel bone bones = some res := by
  constructor
  · intro h
    have hfind := Nat.find_spec h
    have hmin : ∀ k < Nat.find h, iterParent parent (k + 1) bone ≠ skelroot :=
      fun k hk => Nat.find_min h hk
    obtain ⟨res, heq, -, -⟩ :=
      completeBoneTree_run parent skelroot (Nat.find h) bone bones hmin hfind
    exact ⟨Nat.find h + 1, res, heq⟩
  · rintro ⟨fuel, res, h⟩
    exact completeBoneTree_reaches parent skelroot fuel bone bones res h

/-! ## String lemmas for the bone-name convention -/

theorem pyStartsWith_append (p r : List Char) : pyStartsWith p (p ++ r) = true := by
  induction p with
  | nil => rfl
  | cons c cs ih => simp [pyStartsWith, ih]

theorem pyStartsWith_of_le (p : List Char) :
    ∀ (q r : List Char), p.length ≤ q.length →
      pyStartsWith p (q ++ r) = pyStartsWith p q := by
  induction p with
  | nil => intro q r _; rfl
  | cons c cs ih =>
    intro q r hq
    cases q with
    | nil => simp at hq
    | cons d ds =>
      simp only [List.cons_append, pyStartsWith]
      by_cases hc : c = d
      · simp only [if_pos hc]
        exact ih ds r (by simpa using hq)
      · simp [if_neg hc]

theorem pyEndsWith_append (s l : List Char) : pyEndsWith s (l ++ s) = true := by
  unfold pyEndsWith
  rw [List.reverse_append]
  exact pyStartsWith_append _ _

theorem pyEndsWith_of_le (s l t : List Char) (h : s.length ≤ t.length) :
    pyEndsWith s (l ++ t) = pyEndsWith s t := by
  unfold pyEndsWith
  rw [List.reverse_append]
  exact pyStartsWith_of_le _ _ _ (by simpa using h)

/-! ## Claim theorem: bone-name round trip (C10) -/

/-- C10: for every name of the form `Bip01 L <rest>` or `Bip01 R <rest>`,
converting to the Blender convention (`Bip01 <rest>.L` / `.R`) and back
to the NIF convention recovers the original name. -/
theorem c10_bip01_round_trip (rest : List Char) :
    get_bone_name_for_nif (get_bone_name_for_blender ("Bip01 L ".data ++ rest)) =
      "Bip01 L ".data ++ rest ∧
    get_bone_name_for_nif (get_bone_name_for_blender ("Bip01 R ".data ++ rest)) =
      "Bip01 R ".data ++ rest := by
  have hdropL : ("Bip01 L ".data ++ rest).drop 8 = rest := List.drop_left' rfl
  have hdropR : ("Bip01 R ".data ++ rest).drop 8 = rest := List.drop_left' rfl
  have hLR : pyStartsWith "Bip01 L ".data ("Bip01 R ".data ++ rest) = false := by
    rw [pyStartsWith_of_le "Bip01 L ".data "Bip01 R ".data rest (by decide)]
    decide
  have hbL : get_bone_name_for_blender ("Bip01 L ".data ++ rest) =
      "Bip01 ".data ++ (rest ++ ".L".data) := by
    unfold get_bone_name_for_blender
    rw [pyStartsWith_append]
    simp [hdropL]
  have hbR : get_bone_name_for_blender ("Bip01 R ".data ++ rest) =
      "Bip01 ".data ++ (rest ++ ".R".data) := by
    unfold get_bone_name_for_blender
    rw [hLR]
    simp only [Bool.false_eq_true, if_false]
    rw [pyStartsWith_append]
    simp [hdropR]
  have hslice : ∀ tail : List Char, tail.length = 2 →
      pySlice 6 2 ("Bip01 ".data ++ (rest ++ tail)) = rest := by
    intro tail htail
    unfold pySlice
    rw [List.drop_left' (by rfl)]
    have hlen : ("Bip01 ".data ++ (rest ++ tail)).length = rest.length + 8 := by
      have h6 : ("Bip01 ".data).length = 6 := rfl
      simp only [List.length_append, htail, h6]
      omega
    rw [hlen, show rest.length + 8 - (6 + 2) = rest.length by omega]
    exact List.take_left' rfl
  constructor
  · rw [hbL]
    unfold get_bone_name_for_nif
    rw [pyStartsWith_append]
    rw [show "Bip01 ".data ++ (rest ++ ".L".data) =
      ("Bip01 ".data ++ rest) ++ ".L".data by simp]
    rw [pyEndsWith_append]
    simp only [if_true]
    rw [show ("Bip01 ".data ++ rest) ++ ".L".data =
      "Bip01 ".data ++ (rest ++ ".L".data) by simp]
    rw [hslice ".L".data rfl]
  · rw [hbR]
    unfold get_bone_name_for_nif
    rw [pyStartsWith_append]
    have hnotL : pyEndsWith ".L".data ("Bip01 ".data ++ (rest ++ ".R".data)) = false := by
      rw [show "Bip01 ".data ++ (rest ++ ".R".data) =
        ("Bip01 ".data ++ rest) ++ ".R".data by simp]
      rw [pyEndsWith_of_le ".L".data ("Bip01 ".data ++ rest) ".R".data (by decide)]
      decide
    rw [hnotL]
    simp only [Bool.false_eq_true, if_false]
    rw [show "Bip01 ".data ++ (rest ++ ".R".data) =
      ("Bip01 ".data ++ rest) ++ ".R".data by simp]
    rw [pyEndsWith_append]
    simp only [if_true]
    rw [show ("Bip01 ".data ++ rest) ++ ".R".data =
      "Bip01 ".data ++ (rest ++ ".R".data) by simp]
    rw [hslice ".R".data rfl]

/-! ## Real-valued transform math (`armature_import.py`)

`vec_roll_to_mat3` / `mat3_to_vec_roll` (lines 53-106) and
`Armature.decompose_srt` (lines 437-461) do genuine real analysis
(square roots, trigonometry), so they are embedded over `ℝ`. -/

/-- A `mathutils.Vector` of length 3. -/
@[ext]
structure RVec3 where
  x : ℝ
  y : ℝ
  z : ℝ

/-- A `mathutils.Matrix` 3x3, row-major: `mIJ` is row `I`, column `J`
(Python `m[I][J]`). -/
@[ext]
structure RMat3 where
  m00 : ℝ
  m01 : ℝ
  m02 : ℝ
  m10 : ℝ
  m11 : ℝ
  m12 : ℝ
  m20 : ℝ
  m21 : ℝ
  m22 : ℝ

/-- Matrix product (`mathutils.Matrix.__mul__`). -/
def mat3Mul (a b : RMat3) : RMat3 :=
  ⟨a.m00 * b.m00 + a.m01 * b.m10 + a.m02 * b.m20,
   a.m00 * b.m01 + a.m01 * b.m11 + a.m02 * b.m21,
   a.m00 * b.m02 + a.m01 * b.m12 + a.m02 * b.m22,
   a.m10 * b.m00 + a.m11 * b.m10 + a.m12 * b.m20,
   a.m10 * b.m01 + a.m11 * b.m11 + a.m12 * b.m21,
   a.m10 * b.m02 + a.m11 * b.m12 + a.m12 * b.m22,
   a.m20 * b.m00 + a.m21 * b.m10 + a.m22 * b.m20,
   a.m20 * b.m01 + a.m21 * b.m11 + a.m22 * b.m21,
   a.m20 * b.m02 + a.m21 * b.m12 + a.m22 * b.m22⟩

/-- Matrix transpose. -/
def mat3T (a : RMat3) : RMat3 :=
  ⟨a.m00, a.m10, a.m20, a.m01, a.m11, a.m21, a.m02, a.m12, a.m22⟩

/-- Determinant (`mathutils.Matrix.determinant`). -/
def det3 (a : RMat3) : ℝ :=
  a.m00 * (a.m11 * a.m22 - a.m12 * a.m21) -
    a.m01 * (a.m10 * a.m22 - a.m12 * a.m20) +
    a.m02 * (a.m10 * a.m21 - a.m11 * a.m20)

/-- Adjugate (transposed cofactor matrix), used to express
`mathutils.Matrix.inverted`. -/
def adj3 (a : RMat3) : RMat3 :=
  ⟨a.m11 * a.m22 - a.m12 * a.m21, -(a.m01 * a.m22 - a.m02 * a.m21),
   a.m01 * a.m12 - a.m02 * a.m11,
   -(a.m10 * a.m22 - a.m12 * a.m20), a.m00 * a.m22 - a.m02 * a.m20,
   -(a.m00 * a.m12 - a.m02 * a.m10),
   a.m10 * a.m21 - a.m11 * a.m20, -(a.m00 * a.m21 - a.m01 * a.m20),
   a.m00 * a.m11 - a.m01 * a.m10⟩

/-- Scalar times matrix (`Matrix.__mul__` with a float). -/
def smul3 (c : ℝ) (a : RMat3) : RMat3 :=
  ⟨c * a.m00, c * a.m01, c * a.m02, c * a.m10, c * a.m11, c * a.m12,
   c * a.m20, c * a.m21, c * a.m22⟩

/-- The identity matrix (`mathutils.Matrix().to_3x3()`). -/
def id3 : RMat3 := ⟨1, 0, 0, 0, 1, 0, 0, 0, 1⟩

/-- `mathutils.Matrix.inverted()`; for a singular matrix the Python call
raises, here the expression degenerates ((det)⁻¹ = 0); the theorems only
ever use it on invertible matrices. -/
noncomputable def inverted (m : RMat3) : RMat3 :=
  smul3 (det3 m)⁻¹ (adj3 m)

/-- Column 1 of a matrix, `mat.col[1]` in mathutils. -/
def col1 (m : RMat3) : RVec3 := ⟨m.m01, m.m11, m.m21⟩

/-- Euclidean length of a vector. -/
noncomputable def vecNorm (v : RVec3) : ℝ :=
  Real.sqrt (v.x ^ 2 + v.y ^ 2 + v.z ^ 2)

/-- `mathutils.Vector.normalized()`; the zero vector normalizes to the
zero vector (division by zero yields zero in `ℝ`, matching mathutils). -/
noncomputable def normalized (v : RVec3) : RVec3 :=
  ⟨v.x / vecNorm v, v.y / vecNorm v, v.z / vecNorm v⟩

/-- `mathutils.Matrix.Rotation(angle, 3, axis)`: the axis-angle rotation
matrix (Rodrigues form, axis normalized by mathutils). -/
noncomputable def axisRotation (angle : ℝ) (axis : RVec3) : RMat3 :=
  let u := normalized axis
  let c := Real.cos angle
  let s := Real.sin angle
  let t := 1 - c
  ⟨t * u.x * u.x + c, t * u.x * u.y - s * u.z, t * u.x * u.z + s * u.y,
   t * u.x * u.y + s * u.z, t * u.y * u.y + c, t * u.y * u.z - s * u.x,
   t * u.x * u.z - s * u.y, t * u.y * u.z + s * u.x, t * u.z * u.z + c⟩

/-- The general-case `bMatrix` of `vec_roll_to_mat3`
(`theta > THETA_THRESHOLD_NEGY_CLOSE`), with `theta = 1 + nor.y`. -/
noncomputable def genM (nor : RVec3) : RMat3 :=
  ⟨1 - nor.x ^ 2 / (1 + nor.y), nor.x, -(nor.x * nor.z) / (1 + nor.y),
   -nor.x, nor.y, -nor.z,
   -(nor.x * nor.z) / (1 + nor.y), nor.z, 1 - nor.z ^ 2 / (1 + nor.y)⟩

/-- The special-case `bMatrix` of `vec_roll_to_mat3` (`nor` close to -Y
but X or Z nonzero), where the code rebinds `theta = x² + z²`. -/
noncomputable def specM (nor : RVec3) : RMat3 :=
  ⟨(nor.x + nor.z) * (nor.x - nor.z) / -(nor.x ^ 2 + nor.z ^ 2), nor.x,
   2 * nor.x * nor.z / (nor.x ^ 2 + nor.z ^ 2),
   -nor.x, nor.y, -nor.z,
   2 * nor.x * nor.z / (nor.x ^ 2 + nor.z ^ 2), nor.z,
   -((nor.x + nor.z) * (nor.x - nor.z) / -(nor.x ^ 2 + nor.z ^ 2))⟩

open Classical in
/-- The `bMatrix` built by `vec_roll_to_mat3` from the normalized
direction: the three-way numerical branch of armature_import.py 66-90
(`THETA_THRESHOLD_NEGY_CLOSE = 1e-5`, `THETA_THRESHOLD_NEGY = 1e-9`;
Python float truthiness of `nor[0] or nor[2]` is "nonzero").  The
fallback is the symmetric reflection `diag(-1, -1, 1)`. -/
noncomputable def bmat (nor : RVec3) : RMat3 :=
  if 1 + nor.y > 1e-5 ∨ ((nor.x ≠ 0 ∨ nor.z ≠ 0) ∧ 1 + nor.y > 1e-9) then
    if 1 + nor.y > 1e-5 then genM nor else specM nor
  else ⟨-1, 0, 0, 0, -1, 0, 0, 0, 1⟩

/-- `vec_roll_to_mat3(vec, roll)`: normalize the direction, build the
branch-selected `bMatrix`, and compose with the roll rotation about the
direction (`mat = rMatrix * bMatrix`). -/
noncomputable def vec_roll_to_mat3 (vec : RVec3) (roll : ℝ) : RMat3 :=
  mat3Mul (axisRotation roll (normalized vec)) (bmat (normalized vec))

/-- `math.atan2(y, x)`. -/
noncomputable def atan2 (y x : ℝ) : ℝ :=
  if 0 < x then Real.arctan (y / x)
  else if x < 0 then
    (if 0 ≤ y then Real.arctan (y / x) + Real.pi
     else Real.arctan (y / x) - Real.pi)
  else
    (if 0 < y then Real.pi / 2 else if y < 0 then -(Real.pi / 2) else 0)

/-- `mat3_to_vec_roll(mat)`: direction is column 1; the roll is the
`atan2` of entries `[0][2]` and `[2][2]` of
`vec_roll_to_mat3(direction, 0).inverted() * mat`. -/
noncomputable def mat3_to_vec_roll (m : RMat3) : RVec3 × ℝ :=
  let vec := col1 m
  let vecmat := vec_roll_to_mat3 vec 0
  let rollmat := mat3Mul (inverted vecmat) m
  (vec, atan2 rollmat.m02 rollmat.m22)

/-! ## SRT decomposition (`Armature.decompose_srt`, armature_import.py 437-461) -/

open Classical in
/-- The body of `Armature.decompose_srt` after the
`matrix.decompose()` call, which yields `trans_vec` (translation),
`scale_rot` (the rotation quaternion as a matrix) and `scale_vec` (the
scale vector): each scale component goes through `** 0.5`, the sign is
flipped when the rotation determinant is negative, the scalar scale is
`b_scale[0]`, and the returned "rotation" is `scale_rot * b_scale`.
(The non-fatal non-uniform-scale warning does not affect the values.) -/
noncomputable def decompose_srt (trans_vec : RVec3) (scale_rot : RMat3)
    (scale_vec : RVec3) : ℝ × RMat3 × RVec3 :=
  let b_scale : RVec3 :=
    ⟨Real.sqrt scale_vec.x, Real.sqrt scale_vec.y, Real.sqrt scale_vec.z⟩
  let b_scale2 : RVec3 :=
    if det3 scale_rot < 0 then ⟨-b_scale.x, -b_scale.y, -b_scale.z⟩ else b_scale
  (b_scale2.x, smul3 b_scale2.x scale_rot, trans_vec)

/-- Modelled from the behaviour of the external collaborator
`mathutils.Matrix.decompose()` (Blender's math library, out of scope per
the spec, section 1): on a matrix composed from a uniform scale `s > 0`,
a proper rotation `r` and a translation `t`, it returns exactly
`(t, r, (s, s, s))`. -/
def mathutilsDecompose (s : ℝ) (r : RMat3) (t : RVec3) : RVec3 × RMat3 × RVec3 :=
  (t, r, ⟨s, s, s⟩)

/-- `decompose_srt` applied to the transform composed from
`(s, r, t)`: the `matrix.decompose()` step is supplied by
`mathutilsDecompose`. -/
noncomputable def decompose_srt_of_composed (s : ℝ) (r : RMat3) (t : RVec3) :
    ℝ × RMat3 × RVec3 :=
  decompose_srt (mathutilsDecompose s r t).1 (mathutilsDecompose s r t).2.1
    (mathutilsDecompose s r t).2.2

/-! ## Matrix algebra lemmas -/

theorem adj3_mul (m : RMat3) : mat3Mul (adj3 m) m = smul3 (det3 m) id3 := by
  ext <;> simp [mat3Mul, adj3, smul3, det3, id3] <;> ring

theorem smul3_mul (c : ℝ) (a b : RMat3) :
    mat3Mul (smul3 c a) b = smul3 c (mat3Mul a b) := by
  ext <;> simp [mat3Mul, smul3] <;> ring

theorem smul3_smul3 (c d : ℝ) (a : RMat3) : smul3 c (smul3 d a) = smul3 (c * d) a := by
  ext <;> simp [smul3] <;> ring

theorem smul3_one (a : RMat3) : smul3 1 a = a := by
  ext <;> simp [smul3]

theorem inverted_mul (m : RMat3) (h : det3 m ≠ 0) : mat3Mul (inverted m) m = id3 := by
  unfold inverted
  rw [smul3_mul, adj3_mul, smul3_smul3, inv_mul_cancel₀ h, smul3_one]

theorem id3_mul (a : RMat3) : mat3Mul id3 a = a := by
  ext <;> simp [mat3Mul, id3]

theorem axisRotation_zero (axis : RVec3) : axisRotation 0 axis = id3 := by
  ext <;> simp [axisRotation, id3]

theorem atan2_zero_one : atan2 0 1 = 0 := by
  unfold atan2
  rw [if_pos (by norm_num : (0:ℝ) < 1)]
  norm_num

/-- The general-case matrix has determinant 1 on unit directions away
from the -Y singularity. -/
theorem det_genM (nor : RVec3) (hu : nor.x ^ 2 + nor.y ^ 2 + nor.z ^ 2 = 1)
    (hθ : 1 + nor.y ≠ 0) : det3 (genM nor) = 1 := by
  obtain ⟨x, y, z⟩ := nor
  simp only [det3, genM] at *
  field_simp
  linear_combination (1 + y) * hu

/-- The special-case matrix has positive determinant on unit directions
in the near-singular band `1e-9 < 1 + y <= 1e-5`. -/
theorem det_specM_pos (nor : RVec3) (hu : nor.x ^ 2 + nor.y ^ 2 + nor.z ^ 2 = 1)
    (hyl : (1e-9 : ℝ) < 1 + nor.y) (hyu : 1 + nor.y ≤ 1e-5) :
    0 < det3 (specM nor) := by
  obtain ⟨x, y, z⟩ := nor
  simp only at hu hyl hyu
  have hy1 : y < 1 := by nlinarith
  have hy2 : -1 < y := by nlinarith
  have hd : x ^ 2 + z ^ 2 = 1 - y ^ 2 := by linarith [hu]
  have hdpos : 0 < x ^ 2 + z ^ 2 := by nlinarith
  have hdne : x ^ 2 + z ^ 2 ≠ 0 := ne_of_gt hdpos
  have hde : det3 (specM ⟨x, y, z⟩) =
      (-y * (x ^ 2 + z ^ 2) + ((z ^ 2 - x ^ 2) ^ 2 - 4 * (x ^ 2) * z ^ 2)) /
        (x ^ 2 + z ^ 2) := by
    simp only [det3, specM, div_neg, neg_neg]
    field_simp
    ring
  rw [hde]
  apply div_pos _ hdpos
  have hsq : 4 * (x ^ 2) * z ^ 2 ≤ (x ^ 2 + z ^ 2) ^ 2 := by
    nlinarith [sq_nonneg (x ^ 2 - z ^ 2)]
  have hdsmall : x ^ 2 + z ^ 2 ≤ 2e-5 := by nlinarith
  nlinarith [sq_nonneg (x ^ 2 - z ^ 2), hdpos, hdsmall, hyu, hyl]

/-- Normalizing a nonzero vector yields a unit vector. -/
theorem normalized_sq (v : RVec3) (hv : ¬(v.x = 0 ∧ v.y = 0 ∧ v.z = 0)) :
    (normalized v).x ^ 2 + (normalized v).y ^ 2 + (normalized v).z ^ 2 = 1 := by
  have hs : 0 < v.x ^ 2 + v.y ^ 2 + v.z ^ 2 := by
    by_contra h
    push_neg at h
    have hx2 : v.x ^ 2 = 0 :=
      le_antisymm (by nlinarith [sq_nonneg v.y, sq_nonneg v.z]) (sq_nonneg _)
    have hy2 : v.y ^ 2 = 0 :=
      le_antisymm (by nlinarith [sq_nonneg v.x, sq_nonneg v.z]) (sq_nonneg _)
    have hz2 : v.z ^ 2 = 0 :=
      le_antisymm (by nlinarith [sq_nonneg v.x, sq_nonneg v.y]) (sq_nonneg _)
    exact hv ⟨sq_eq_zero_iff.mp hx2, sq_eq_zero_iff.mp hy2, sq_eq_zero_iff.mp hz2⟩
  have hN2 : vecNorm v ^ 2 = v.x ^ 2 + v.y ^ 2 + v.z ^ 2 := Real.sq_sqrt hs.le
  simp only [normalized]
  rw [div_pow, div_pow, div_pow, div_add_div_same, div_add_div_same, hN2]
  exact div_self (ne_of_gt hs)

/-- Normalizing is the identity on unit vectors. -/
theorem normalized_self (n : RVec3) (hu : n.x ^ 2 + n.y ^ 2 + n.z ^ 2 = 1) :
    normalized n = n := by
  have hN : vecNorm n = 1 := by
    unfold vecNorm
    rw [hu, Real.sqrt_one]
  unfold normalized
  rw [hN]
  ext <;> simp

/-! ## Claim theorems: transform math (C4, C5) -/

/-- C4: for every nonzero direction `v` that is not within `1e-9` of the
-Y singularity (measured, as the code does, by `theta = 1 + y` of the
normalized direction), `mat3_to_vec_roll (vec_roll_to_mat3 v 0)` recovers
exactly `(v.normalized(), 0)`; and at the singular point `(0, -1, 0)` the
fallback branch produces an orthonormal frame (`Mᵀ M = I`, i.e. columns
unit length and mutually orthogonal) with determinant `+1`. -/
theorem c4_roll_round_trip_and_singular_frame :
    (∀ v : RVec3, v ≠ ⟨0, 0, 0⟩ → (1e-9 : ℝ) < 1 + (normalized v).y →
      mat3_to_vec_roll (vec_roll_to_mat3 v 0) = (normalized v, 0)) ∧
    mat3Mul (mat3T (vec_roll_to_mat3 ⟨0, -1, 0⟩ 0)) (vec_roll_to_mat3 ⟨0, -1, 0⟩ 0) = id3 ∧
    det3 (vec_roll_to_mat3 ⟨0, -1, 0⟩ 0) = 1 := by
  constructor
  · intro v hv hθ
    set n := normalized v with hn
    have hu : n.x ^ 2 + n.y ^ 2 + n.z ^ 2 = 1 := by
      refine normalized_sq v ?_
      rintro ⟨hx, hy, hz⟩
      exact hv (by ext <;> assumption)
    have hv0 : vec_roll_to_mat3 v 0 = bmat n := by
      unfold vec_roll_to_mat3
      rw [axisRotation_zero, id3_mul]
    have hnn : normalized n = n := normalized_self n hu
    have hvn : vec_roll_to_mat3 n 0 = bmat n := by
      unfold vec_roll_to_mat3
      rw [hnn, axisRotation_zero, id3_mul]
    have hcond : 1 + n.y > 1e-5 ∨ ((n.x ≠ 0 ∨ n.z ≠ 0) ∧ 1 + n.y > 1e-9) := by
      by_cases h5 : 1 + n.y > 1e-5
      · exact Or.inl h5
      · right
        refine ⟨?_, hθ⟩
        by_contra hxz
        push_neg at hxz
        obtain ⟨hx0, hz0⟩ := hxz
        rw [hx0, hz0] at hu
        norm_num at hu
        rcases hu with h1 | h1
        · exact h5 (by rw [h1]; norm_num)
        · rw [h1] at hθ
          norm_num at hθ
    have hdet : det3 (bmat n) ≠ 0 := by
      unfold bmat
      rw [if_pos hcond]
      by_cases h5 : 1 + n.y > 1e-5
      · rw [if_pos h5,
          det_genM n hu (ne_of_gt (show (0:ℝ) < 1 + n.y by linarith))]
        norm_num
      · rw [if_neg h5]
        exact ne_of_gt (det_specM_pos n hu hθ (le_of_not_lt h5))
    have hcol : col1 (bmat n) = n := by
      unfold bmat
      rw [if_pos hcond]
      by_cases h5 : 1 + n.y > 1e-5
      · rw [if_pos h5]
        rfl
      · rw [if_neg h5]
        rfl
    simp only [mat3_to_vec_roll]
    rw [hv0, hcol, hvn, inverted_mul (bmat n) hdet]
    simp [id3, atan2_zero_one]
  · have hnn : normalized ⟨0, -1, 0⟩ = ⟨0, -1, 0⟩ := by
      unfold normalized vecNorm
      norm_num
    have hb : vec_roll_to_mat3 ⟨0, -1, 0⟩ 0 = ⟨-1, 0, 0, 0, -1, 0, 0, 0, 1⟩ := by
      unfold vec_roll_to_mat3
      rw [hnn, axisRotation_zero, id3_mul]
      unfold bmat
      rw [if_neg (by norm_num)]
    rw [hb]
    constructor
    · ext <;> simp [mat3Mul, mat3T, id3]
    · norm_num [det3]

/-- C4 witness: the round trip evaluated at the concrete direction
`(1, 0, 0)`. -/
theorem c4_witness :
    mat3_to_vec_roll (vec_roll_to_mat3 ⟨1, 0, 0⟩ 0) = (normalized ⟨1, 0, 0⟩, 0) :=
  c4_roll_round_trip_and_singular_frame.1 ⟨1, 0, 0⟩
    (by intro h; exact one_ne_zero (congrArg RVec3.x h))
    (by norm_num [normalized, vecNorm])

/-- C5 (code bug witness): decomposing the transform composed from the
uniform scale 4, the identity rotation and zero translation returns
scale `sqrt 4 = 2` and the scale-contaminated matrix `2 * I` instead of
the claimed `(4, I, 0)`: the code takes `** 0.5` of the scale already
extracted by `matrix.decompose()` and multiplies the rotation by it. -/
theorem c5_decompose_srt_failing_input :
    decompose_srt_of_composed 4 id3 ⟨0, 0, 0⟩ = (2, smul3 2 id3, ⟨0, 0, 0⟩) ∧
    (2 : ℝ) ≠ 4 ∧ smul3 2 id3 ≠ id3 := by
  have h4 : Real.sqrt 4 = 2 := by
    rw [show (4:ℝ) = 2 ^ 2 by norm_num]
    exact Real.sqrt_sq (by norm_num)
  have hdet : ¬ det3 id3 < 0 := by norm_num [det3, id3]
  refine ⟨?_, by norm_num, ?_⟩
  · simp [decompose_srt_of_composed, mathutilsDecompose, decompose_srt, hdet, h4]
  · intro h
    have hc := congrArg RMat3.m00 h
    norm_num [smul3, id3] at hc

end NifBlender
